import Mathlib

/-!
# Verification of the Ising model simulation (`ising.py`)

Shallow embedding of the repository's core: the `IsingLattice` class
(periodic boundary lookup `_bc`, local `energy`, `magnetization`,
`internal_energy`, `heat_capacity`, construction `_build_system`) and the
Metropolis driver loop `run`.

Modelling choices:
* lattice spins are a total function `ℤ → ℤ → ℤ` (the numpy array,
  indexed by the integer coordinates the code actually uses; `_bc` keeps
  all actual accesses inside `[0, size)`);
* `size` is `ℤ` (a Python `int`), grid iteration uses `size.toNat`;
* the temperature is `ℚ` (an exact stand-in for the Python float), cast
  to `ℝ` where it meets `exp`;
* the random sources (`np.random.choice`, `np.random.randint`,
  `np.random.rand`) are oracles passed in as explicit arguments;
* exceptions (`ValueError` from `_build_system`, numpy's negative
  dimension error, `ZeroDivisionError` from `epoch % (epochs//75)`) are
  modelled with `Except`.
-/

namespace IsingModel

/-- The `IsingLattice` object: `self.size`, `self.T`, `self.system`. -/
structure IsingLattice where
  size : ℤ
  T : ℚ
  system : ℤ → ℤ → ℤ

/-- `IsingLattice._bc`: periodic boundary condition.
`if i >= self.size: return 0` / `if i < 0: return self.size - 1` / `else: return i`. -/
def IsingLattice.bc (L : IsingLattice) (i : ℤ) : ℤ :=
  if L.size ≤ i then 0
  else if i < 0 then L.size - 1
  else i

/-- `IsingLattice.energy(N, M)`:
`-2*self.system[N, M]*(self.system[self._bc(N-1), M] + self.system[self._bc(N+1), M]
 + self.system[N, self._bc(M-1)] + self.system[N, self._bc(M+1)])`. -/
def IsingLattice.energy (L : IsingLattice) (N M : ℤ) : ℤ :=
  -2 * L.system N M * (
    L.system (L.bc (N - 1)) M + L.system (L.bc (N + 1)) M
    + L.system N (L.bc (M - 1)) + L.system N (L.bc (M + 1)))

/-- Build a lattice from an explicit grid (row-major list of rows), as the
tests do with `lattice.system = np.array([...])`. -/
def mkLattice (T : ℚ) (rows : List (List ℤ)) : IsingLattice :=
  { size := rows.length
    T := T
    system := fun i j => (rows.getD i.toNat []).getD j.toNat 0 }

/-- `np.sum(self.system)`: the sum of all grid entries. -/
def IsingLattice.sumSpins (L : IsingLattice) : ℤ :=
  ∑ i ∈ Finset.range L.size.toNat, ∑ j ∈ Finset.range L.size.toNat, L.system i j

/-- `IsingLattice.magnetization`: `np.abs(np.sum(self.system)/self.size**2)`. -/
def IsingLattice.magnetization (L : IsingLattice) : ℚ :=
  |(L.sumSpins : ℚ) / (L.size : ℚ) ^ 2|

/-- C3: for every lattice with positive size and every `i ∈ {-1, …, size}`,
`_bc i` is `0` when `i ≥ size`, `size - 1` when `i < 0`, and `i` otherwise;
in particular for `size = 100`: `bc 100 = 0`, `bc 99 = 99`, `bc 0 = 0`,
`bc (-1) = 99`. -/
theorem bc_wrap_spec :
    (∀ (L : IsingLattice) (i : ℤ), 0 < L.size → -1 ≤ i → i ≤ L.size →
      (L.size ≤ i → L.bc i = 0) ∧
      (i < 0 → L.bc i = L.size - 1) ∧
      (0 ≤ i → i < L.size → L.bc i = i)) ∧
    (IsingLattice.bc ⟨100, 1, fun _ _ => 1⟩ 100 = 0) ∧
    (IsingLattice.bc ⟨100, 1, fun _ _ => 1⟩ 99 = 99) ∧
    (IsingLattice.bc ⟨100, 1, fun _ _ => 1⟩ 0 = 0) ∧
    (IsingLattice.bc ⟨100, 1, fun _ _ => 1⟩ (-1) = 99) := by
  refine ⟨?_, by decide, by decide, by decide, by decide⟩
  intro L i _ _ _
  unfold IsingLattice.bc
  refine ⟨?_, ?_, ?_⟩ <;> intros <;> split_ifs <;> omega

/-- Witness for `bc_wrap_spec`: its general part applied to the concrete
size-100 lattice at `i = -1`. -/
theorem bc_wrap_spec_witness :
    IsingLattice.bc ⟨100, 1, fun _ _ => 1⟩ (-1) = 100 - 1 :=
  (bc_wrap_spec.1 ⟨100, 1, fun _ _ => 1⟩ (-1) (by decide) (by decide)
    (by decide)).2.1 (by decide)

/-- C1: for every lattice with `±1` spins and in-range site, `energy`
returns `-2 * spin(N,M) * (sum of the four wrapped neighbours)`; and the
four concrete 3×3 instances from the spec and the test suite. -/
theorem energy_spec :
    (∀ (L : IsingLattice) (N M : ℤ),
      (∀ i j, 0 ≤ i → i < L.size → 0 ≤ j → j < L.size →
        L.system i j = 1 ∨ L.system i j = -1) →
      0 ≤ N → N < L.size → 0 ≤ M → M < L.size →
      L.energy N M = -2 * L.system N M * (
        L.system (L.bc (N - 1)) M + L.system (L.bc (N + 1)) M
        + L.system N (L.bc (M - 1)) + L.system N (L.bc (M + 1)))) ∧
    (mkLattice 1 [[1, 1, 1], [1, 1, 1], [1, 1, 1]]).energy 1 1 = -8 ∧
    (mkLattice 1 [[-1, -1, -1], [-1, -1, -1], [-1, -1, -1]]).energy 1 1 = -8 ∧
    (mkLattice 1 [[-1, -1, -1], [-1, 1, -1], [-1, -1, -1]]).energy 1 1 = 8 ∧
    (mkLattice 1 [[1, -1, 1], [-1, 1, 1], [1, 1, 1]]).energy 1 1 = 0 := by
  refine ⟨?_, by decide, by decide, by decide, by decide⟩
  intro L N M _ _ _ _ _
  rfl

/-- Witness for `energy_spec`: its general part applied to the uniform 3×3
lattice at site `(1,1)`. -/
theorem energy_spec_witness :
    (mkLattice 1 [[1, 1, 1], [1, 1, 1], [1, 1, 1]]).energy 1 1 =
      -2 * 1 * (1 + 1 + 1 + 1) := by
  have h := energy_spec.1 (mkLattice 1 [[1, 1, 1], [1, 1, 1], [1, 1, 1]]) 1 1
    (by
      intro i j hi hi2 hj hj2
      simp only [mkLattice, List.length] at hi2 hj2
      interval_cases i <;> interval_cases j <;> decide)
    (by decide) (by decide) (by decide) (by decide)
  rw [h]
  decide

/-- C7: for every lattice with `±1` spins, `magnetization` is the absolute
value of the spin sum divided by `size²`, lies in `[0, 1]`, and (being a
pure function of the state in this embedding) does not modify the lattice;
`1` on the uniform `+1` and uniform `-1` 3×3 lattices. -/
theorem magnetization_spec :
    (∀ L : IsingLattice,
      (∀ i j, 0 ≤ i → i < L.size → 0 ≤ j → j < L.size →
        L.system i j = 1 ∨ L.system i j = -1) →
      L.magnetization = |(L.sumSpins : ℚ)| / (L.size : ℚ) ^ 2 ∧
      0 ≤ L.magnetization ∧ L.magnetization ≤ 1) ∧
    (mkLattice 1 [[1, 1, 1], [1, 1, 1], [1, 1, 1]]).magnetization = 1 ∧
    (mkLattice 1 [[-1, -1, -1], [-1, -1, -1], [-1, -1, -1]]).magnetization = 1 := by
  refine ⟨?_, ?_, ?_⟩
  case refine_2 =>
    have h : (mkLattice 1 [[1, 1, 1], [1, 1, 1], [1, 1, 1]]).sumSpins = 9 := by decide
    have hsz : (mkLattice 1 [[1, 1, 1], [1, 1, 1], [1, 1, 1]]).size = 3 := by decide
    rw [IsingLattice.magnetization, h, hsz]
    rw [show ((9 : ℤ) : ℚ) / ((3 : ℤ) : ℚ) ^ 2 = 1 by norm_num]
    simp
  case refine_3 =>
    have h : (mkLattice 1 [[-1, -1, -1], [-1, -1, -1], [-1, -1, -1]]).sumSpins = -9 := by
      decide
    have hsz : (mkLattice 1 [[-1, -1, -1], [-1, -1, -1], [-1, -1, -1]]).size = 3 := by
      decide
    rw [IsingLattice.magnetization, h, hsz]
    rw [show ((-9 : ℤ) : ℚ) / ((3 : ℤ) : ℚ) ^ 2 = -1 by norm_num]
    simp
  intro L hpm
  have habs : L.magnetization = |(L.sumSpins : ℚ)| / (L.size : ℚ) ^ 2 := by
    rw [IsingLattice.magnetization, abs_div, abs_of_nonneg (sq_nonneg ((L.size : ℚ)))]
  refine ⟨habs, by rw [IsingLattice.magnetization]; exact abs_nonneg _, ?_⟩
  rcases le_or_lt L.size 0 with hs | hs
  · have h0 : L.size.toNat = 0 := Int.toNat_of_nonpos hs
    rw [IsingLattice.magnetization, IsingLattice.sumSpins, h0]
    simp
  · rw [habs]
    have hn : ((L.size.toNat : ℤ)) = L.size := Int.toNat_of_nonneg hs.le
    have hb : |L.sumSpins| ≤ (L.size.toNat : ℤ) * (L.size.toNat : ℤ) := by
      calc |L.sumSpins|
          ≤ ∑ i ∈ Finset.range L.size.toNat,
              |∑ j ∈ Finset.range L.size.toNat, L.system i j| :=
            Finset.abs_sum_le_sum_abs _ _
        _ ≤ ∑ i ∈ Finset.range L.size.toNat,
              ∑ j ∈ Finset.range L.size.toNat, |L.system i j| :=
            Finset.sum_le_sum fun i _ => Finset.abs_sum_le_sum_abs _ _
        _ = ∑ _i ∈ Finset.range L.size.toNat,
              ∑ _j ∈ Finset.range L.size.toNat, (1 : ℤ) := by
            refine Finset.sum_congr rfl fun i hi => Finset.sum_congr rfl fun j hj => ?_
            have hi2 : (i : ℤ) < L.size := by
              rw [← hn]; exact_mod_cast Finset.mem_range.mp hi
            have hj2 : (j : ℤ) < L.size := by
              rw [← hn]; exact_mod_cast Finset.mem_range.mp hj
            rcases hpm i j (Int.ofNat_nonneg i) hi2 (Int.ofNat_nonneg j) hj2 with h | h <;>
              rw [h] <;> decide
        _ = (L.size.toNat : ℤ) * (L.size.toNat : ℤ) := by
            simp [Finset.sum_const, Finset.card_range, mul_comm]
    have hb2 : |L.sumSpins| ≤ L.size * L.size := by rw [← hn]; exact hb
    have hb3 : |(L.sumSpins : ℚ)| ≤ (L.size : ℚ) ^ 2 := by
      rw [sq]; exact_mod_cast hb2
    rw [div_le_one (by positivity)]
    exact hb3

/-- Witness for `magnetization_spec`: its general part applied to the
uniform 3×3 lattice. -/
theorem magnetization_spec_witness :
    0 ≤ (mkLattice 1 [[1, 1, 1], [1, 1, 1], [1, 1, 1]]).magnetization ∧
    (mkLattice 1 [[1, 1, 1], [1, 1, 1], [1, 1, 1]]).magnetization ≤ 1 :=
  (magnetization_spec.1 (mkLattice 1 [[1, 1, 1], [1, 1, 1], [1, 1, 1]])
    (by
      intro i j hi hi2 hj hj2
      simp only [mkLattice, List.length] at hi2 hj2
      interval_cases i <;> interval_cases j <;> decide)).2

/-- C6 counterexample: the concrete 3×3 grid `[[1,1,1],[1,1,1],[1,-1,-1]]`
has exactly 7 of its 9 spins equal to `+1`, yet `magnetization` is not
`7/9` (the spin sum is `5`, so the value is `5/9`). -/
theorem magnetization_seven_of_nine_cex :
    ((Finset.range 3 ×ˢ Finset.range 3).filter
      (fun p : ℕ × ℕ =>
        (mkLattice 1 [[1, 1, 1], [1, 1, 1], [1, -1, -1]]).system p.1 p.2 = 1)).card = 7 ∧
    (mkLattice 1 [[1, 1, 1], [1, 1, 1], [1, -1, -1]]).magnetization ≠ 7 / 9 := by
  refine ⟨by decide, ?_⟩
  have h : (mkLattice 1 [[1, 1, 1], [1, 1, 1], [1, -1, -1]]).sumSpins = 5 := by decide
  have hsz : (mkLattice 1 [[1, 1, 1], [1, 1, 1], [1, -1, -1]]).size = 3 := by decide
  rw [IsingLattice.magnetization, h, hsz]
  rw [show ((5 : ℤ) : ℚ) / ((3 : ℤ) : ℚ) ^ 2 = 5 / 9 by norm_num]
  rw [abs_of_nonneg (by norm_num : (0 : ℚ) ≤ 5 / 9)]
  norm_num

/-- C6 (amended): for every 3×3 lattice with `±1` spins of which exactly 7
are `+1` (hence 2 are `-1`), `magnetization` returns `5/9`. -/
theorem magnetization_seven_of_nine :
    ∀ L : IsingLattice, L.size = 3 →
    (∀ i j, 0 ≤ i → i < L.size → 0 ≤ j → j < L.size →
      L.system i j = 1 ∨ L.system i j = -1) →
    ((Finset.range 3 ×ˢ Finset.range 3).filter
      (fun p : ℕ × ℕ => L.system p.1 p.2 = 1)).card = 7 →
    L.magnetization = 5 / 9 := by
  intro L hsize hpm hcard
  have hs : L.sumSpins = 5 := by
    have hgrid : L.sumSpins =
        ∑ p ∈ Finset.range 3 ×ˢ Finset.range 3, L.system p.1 p.2 := by
      rw [IsingLattice.sumSpins, hsize]
      exact (Finset.sum_product' _ _ _).symm
    have hsplit := Finset.sum_filter_add_sum_filter_not
      (Finset.range 3 ×ˢ Finset.range 3)
      (fun p : ℕ × ℕ => L.system p.1 p.2 = 1)
      (fun p : ℕ × ℕ => L.system p.1 p.2)
    have hctot := Finset.filter_card_add_filter_neg_card_eq_card
      (s := Finset.range 3 ×ˢ Finset.range 3)
      (p := fun p : ℕ × ℕ => L.system p.1 p.2 = 1)
    have hcard2 : ((Finset.range 3 ×ˢ Finset.range 3).filter
        (fun p : ℕ × ℕ => ¬ L.system p.1 p.2 = 1)).card = 2 := by
      have h9 : (Finset.range 3 ×ˢ Finset.range 3).card = 9 := by decide
      omega
    have h1 : ∑ p ∈ (Finset.range 3 ×ˢ Finset.range 3).filter
        (fun p : ℕ × ℕ => L.system p.1 p.2 = 1), L.system p.1 p.2 = 7 := by
      rw [Finset.sum_eq_card_nsmul (fun p hp => (Finset.mem_filter.mp hp).2), hcard]
      simp
    have h2 : ∑ p ∈ (Finset.range 3 ×ˢ Finset.range 3).filter
        (fun p : ℕ × ℕ => ¬ L.system p.1 p.2 = 1), L.system p.1 p.2 = -2 := by
      have hval : ∀ p ∈ (Finset.range 3 ×ˢ Finset.range 3).filter
          (fun p : ℕ × ℕ => ¬ L.system p.1 p.2 = 1),
          L.system p.1 p.2 = -1 := by
        intro p hp
        obtain ⟨hmem, hne⟩ := Finset.mem_filter.mp hp
        obtain ⟨hp1, hp2⟩ := Finset.mem_product.mp hmem
        have hb1 : ((p.1 : ℤ)) < L.size := by
          rw [hsize]; exact_mod_cast Finset.mem_range.mp hp1
        have hb2 : ((p.2 : ℤ)) < L.size := by
          rw [hsize]; exact_mod_cast Finset.mem_range.mp hp2
        rcases hpm p.1 p.2 (Int.ofNat_nonneg _) hb1 (Int.ofNat_nonneg _) hb2 with h | h
        · exact absurd h hne
        · exact h
      rw [Finset.sum_eq_card_nsmul hval, hcard2]
      simp
    rw [hgrid, ← hsplit, h1, h2]
    decide
  rw [IsingLattice.magnetization, hs, hsize]
  rw [show ((5 : ℤ) : ℚ) / ((3 : ℤ) : ℚ) ^ 2 = 5 / 9 by norm_num]
  rw [abs_of_nonneg (by norm_num : (0 : ℚ) ≤ 5 / 9)]

/-- Witness for `magnetization_seven_of_nine`: applied to the concrete
grid `[[1,1,1],[1,1,1],[1,-1,-1]]`. -/
theorem magnetization_seven_of_nine_witness :
    (mkLattice 1 [[1, 1, 1], [1, 1, 1], [1, -1, -1]]).magnetization = 5 / 9 :=
  magnetization_seven_of_nine (mkLattice 1 [[1, 1, 1], [1, 1, 1], [1, -1, -1]])
    (by decide)
    (by
      intro i j hi hi2 hj hj2
      simp only [mkLattice, List.length] at hi2 hj2
      interval_cases i <;> interval_cases j <;> decide)
    (by decide)

/-- The two `ValueError`s that can escape `IsingLattice.__init__`:
the explicit `raise ValueError("Initial State must be ...")` in
`_build_system`, and numpy's "negative dimensions are not allowed" from
`np.random.choice`/`np.ones` when `size < 0`. -/
inductive BuildError where
  | invalidInitialState
  | negativeDimensions

/-- `IsingLattice._build_system(initial_state)`: `'r'` draws each spin
from `{-1, 1}` (the draw oracle `r`), `'u'` is all ones, anything else
raises `ValueError`. numpy rejects a negative shape. A `size` of `0`
builds an empty grid without error. -/
def buildSystem (initial_state : String) (size : ℤ) (r : ℤ → ℤ → Bool) :
    Except BuildError (ℤ → ℤ → ℤ) :=
  if initial_state = "r" then
    if size < 0 then .error .negativeDimensions
    else .ok fun i j => if r i j then 1 else -1
  else if initial_state = "u" then
    if size < 0 then .error .negativeDimensions
    else .ok fun _ _ => 1
  else .error .invalidInitialState

/-- `IsingLattice.__init__(temperature, initial_state, size)`: stores
`size` and `T`, then builds `self.system`; the only possible failure is
the one propagated from `_build_system`. -/
def IsingLattice.init (temperature : ℚ) (initial_state : String) (size : ℤ)
    (r : ℤ → ℤ → Bool) : Except BuildError IsingLattice :=
  match buildSystem initial_state size r with
  | .error e => .error e
  | .ok sys => .ok { size := size, T := temperature, system := sys }

lemma init_ok_iff (T : ℚ) (s : String) (size : ℤ) (r : ℤ → ℤ → Bool) :
    (∃ L, IsingLattice.init T s size r = .ok L) ↔
    (∃ sys, buildSystem s size r = .ok sys) := by
  unfold IsingLattice.init
  cases h : buildSystem s size r <;> simp

lemma buildSystem_ok_iff (s : String) (size : ℤ) (r : ℤ → ℤ → Bool) :
    (∃ sys, buildSystem s size r = .ok sys) ↔
    ((s = "r" ∨ s = "u") ∧ 0 ≤ size) := by
  unfold buildSystem
  split_ifs with h1 h2 h3 h4 <;> simp_all [Int.not_lt.mp]

/-- C4 counterexample: construction with `temperature = -1` (non-positive)
succeeds, contradicting the claim that construction fails whenever
`temperature ≤ 0`.  (Likewise `size = 0` is accepted.) -/
theorem init_validation_cex :
    (∃ L, IsingLattice.init (-1) "u" 3 (fun _ _ => true) = .ok L) ∧
    ((-1 : ℚ) ≤ 0) ∧
    (∃ L, IsingLattice.init 1 "u" 0 (fun _ _ => true) = .ok L) :=
  ⟨⟨⟨3, -1, fun _ _ => 1⟩, rfl⟩, by norm_num, ⟨⟨0, 1, fun _ _ => 1⟩, rfl⟩⟩

/-- C4 (amended): construction fails if and only if `initial_state` is
neither `'r'` nor `'u'`, or `size` is negative (numpy's negative-dimension
error); it does not validate `size = 0` or non-positive `temperature`.
Any failure happens immediately at construction time. -/
theorem init_failure_iff :
    ∀ (T : ℚ) (s : String) (size : ℤ) (r : ℤ → ℤ → Bool),
      (∀ L, IsingLattice.init T s size r ≠ .ok L) ↔
      ((s ≠ "r" ∧ s ≠ "u") ∨ size < 0) := by
  intro T s size r
  have h := (init_ok_iff T s size r).trans (buildSystem_ok_iff s size r)
  constructor
  · intro hfail
    by_contra hcon
    push_neg at hcon
    obtain ⟨hstate, hsz⟩ := hcon
    have : (s = "r" ∨ s = "u") ∧ 0 ≤ size := by
      constructor
      · by_cases hr : s = "r"
        · exact Or.inl hr
        · exact Or.inr (hstate hr)
      · omega
    obtain ⟨L, hL⟩ := h.mpr this
    exact hfail L hL
  · intro hbad L hL
    have := h.mp ⟨L, hL⟩
    rcases hbad with ⟨h1, h2⟩ | hneg
    · rcases this.1 with h | h
      · exact h1 h
      · exact h2 h
    · omega

/-- `lattice.system[N, M] *= -1`: flip the spin at one site. -/
def IsingLattice.flip (L : IsingLattice) (N M : ℤ) : IsingLattice :=
  { L with system := fun i j =>
      if i = N ∧ j = M then -1 * L.system i j else L.system i j }

/-- One epoch body of `run`: `E = -1*lattice.energy(N, M)`; flip when
`E <= 0.`, otherwise flip when `np.exp(-E/lattice.T) > np.random.rand()`
(`u` is the oracle for that uniform draw, made only in the `elif`). -/
noncomputable def epoch (L : IsingLattice) (N M : ℤ) (u : ℝ) : IsingLattice :=
  if -1 * L.energy N M ≤ 0 then L.flip N M
  else if Real.exp (-((-1 * L.energy N M : ℤ) : ℝ) / (L.T : ℝ)) > u then L.flip N M
  else L

/-- C2: in every epoch, with `ΔE = -1 * energy(N, M)`: the spin at the
chosen site is flipped when `ΔE ≤ 0`; otherwise it is flipped exactly
when `exp(-ΔE / T) > u` for the uniform draw `u`, and the lattice is left
unchanged when `exp(-ΔE / T) ≤ u`. -/
theorem epoch_metropolis_rule :
    ∀ (L : IsingLattice) (N M : ℤ) (u : ℝ),
      (-1 * L.energy N M ≤ 0 → epoch L N M u = L.flip N M) ∧
      (0 < -1 * L.energy N M →
        Real.exp (-((-1 * L.energy N M : ℤ) : ℝ) / (L.T : ℝ)) > u →
        epoch L N M u = L.flip N M) ∧
      (0 < -1 * L.energy N M →
        Real.exp (-((-1 * L.energy N M : ℤ) : ℝ) / (L.T : ℝ)) ≤ u →
        epoch L N M u = L) := by
  intro L N M u
  refine ⟨fun h => ?_, fun h hexp => ?_, fun h hexp => ?_⟩ <;>
    unfold epoch
  · rw [if_pos h]
  · rw [if_neg (by omega), if_pos hexp]
  · rw [if_neg (by omega), if_neg (not_lt.mpr hexp)]

/-- Witness for `epoch_metropolis_rule`: on the grid
`[[-1,-1,-1],[-1,1,-1],[-1,-1,-1]]` at site `(1,1)`, `ΔE = -8 ≤ 0`, so
the epoch flips the spin unconditionally. -/
theorem epoch_metropolis_rule_witness :
    epoch (mkLattice 1 [[-1, -1, -1], [-1, 1, -1], [-1, -1, -1]]) 1 1 (1 / 2)
      = (mkLattice 1 [[-1, -1, -1], [-1, 1, -1], [-1, -1, -1]]).flip 1 1 :=
  (epoch_metropolis_rule (mkLattice 1 [[-1, -1, -1], [-1, 1, -1], [-1, -1, -1]])
    1 1 (1 / 2)).1 (by decide)

/-- C9: in a rejected epoch (`ΔE > 0` and the acceptance draw fails,
`exp(-ΔE/T) ≤ u`), the lattice after the epoch is identical to the
lattice before it — in particular every entry of the spin array is
unchanged. -/
theorem epoch_reject_identity :
    ∀ (L : IsingLattice) (N M : ℤ) (u : ℝ),
      0 < -1 * L.energy N M →
      Real.exp (-((-1 * L.energy N M : ℤ) : ℝ) / (L.T : ℝ)) ≤ u →
      epoch L N M u = L ∧
      ∀ i j, (epoch L N M u).system i j = L.system i j := by
  intro L N M u h hexp
  have heq : epoch L N M u = L := by
    unfold epoch
    rw [if_neg (by omega), if_neg (not_lt.mpr hexp)]
  exact ⟨heq, fun i j => by rw [heq]⟩

/-- Witness for `epoch_reject_identity`: on the uniform `+1` 3×3 lattice
at `T = 1`, site `(1,1)` has `ΔE = 8 > 0`, and with draw `u = 1` the
acceptance test `exp(-8) > 1` fails, so the epoch changes nothing. -/
theorem epoch_reject_identity_witness :
    epoch (mkLattice 1 [[1, 1, 1], [1, 1, 1], [1, 1, 1]]) 1 1 1
      = mkLattice 1 [[1, 1, 1], [1, 1, 1], [1, 1, 1]] := by
  have hE : -1 * (mkLattice 1 [[1, 1, 1], [1, 1, 1], [1, 1, 1]]).energy 1 1 = (8 : ℤ) := by
    decide
  have hT : ((mkLattice 1 [[1, 1, 1], [1, 1, 1], [1, 1, 1]]).T : ℝ) = 1 := by
    norm_num [mkLattice]
  refine (epoch_reject_identity (mkLattice 1 [[1, 1, 1], [1, 1, 1], [1, 1, 1]])
    1 1 1 (by rw [hE]; norm_num) ?_).1
  rw [hE, hT]
  have harg : (-(((8 : ℤ) : ℝ)) / 1) = (-8 : ℝ) := by norm_num
  rw [harg]
  exact Real.exp_le_one_iff.mpr (by norm_num)

/-- `IsingLattice.internal_energy`: accumulate `e = energy(i, j)` into
`E` and `e**2` into `E_2` over all sites, then return
`U = (1./size**2)*E` and `U_2 = (1./size**2)*E_2`. -/
def IsingLattice.internal_energy (L : IsingLattice) : ℚ × ℚ :=
  ((1 / (L.size : ℚ) ^ 2) *
      ∑ i ∈ Finset.range L.size.toNat, ∑ j ∈ Finset.range L.size.toNat,
        (L.energy i j : ℚ),
   (1 / (L.size : ℚ) ^ 2) *
      ∑ i ∈ Finset.range L.size.toNat, ∑ j ∈ Finset.range L.size.toNat,
        (L.energy i j : ℚ) ^ 2)

/-- `IsingLattice.heat_capacity`: `U, U_2 = internal_energy; U_2 - U**2`. -/
def IsingLattice.heat_capacity (L : IsingLattice) : ℚ :=
  L.internal_energy.2 - L.internal_energy.1 ^ 2

/-- The claim's reading of `U_2 - U**2`: the variance of the per-site
energies, `(1/size²) · Σ (energy(i,j) - U)²` with `U` the mean. -/
def energyVariance (L : IsingLattice) : ℚ :=
  (1 / (L.size : ℚ) ^ 2) *
    ∑ i ∈ Finset.range L.size.toNat, ∑ j ∈ Finset.range L.size.toNat,
      ((L.energy i j : ℚ) - L.internal_energy.1) ^ 2

lemma double_sum_sq_expand (n : ℕ) (f : ℕ → ℕ → ℚ) (U : ℚ) :
    ∑ i ∈ Finset.range n, ∑ j ∈ Finset.range n, (f i j - U) ^ 2
      = (∑ i ∈ Finset.range n, ∑ j ∈ Finset.range n, f i j ^ 2)
        - 2 * U * (∑ i ∈ Finset.range n, ∑ j ∈ Finset.range n, f i j)
        + ((n : ℚ)) * ((n : ℚ)) * U ^ 2 := by
  have inner : ∀ i ∈ Finset.range n,
      (∑ j ∈ Finset.range n, (f i j - U) ^ 2)
        = (∑ j ∈ Finset.range n, f i j ^ 2)
          - 2 * U * (∑ j ∈ Finset.range n, f i j) + (n : ℚ) * U ^ 2 := by
    intro i _
    have h1 : ∀ j ∈ Finset.range n,
        (f i j - U) ^ 2 = f i j ^ 2 - 2 * U * f i j + U ^ 2 := fun j _ => by ring
    rw [Finset.sum_congr rfl h1, Finset.sum_add_distrib, Finset.sum_sub_distrib,
      ← Finset.mul_sum, Finset.sum_const, Finset.card_range, nsmul_eq_mul]
  rw [Finset.sum_congr rfl inner, Finset.sum_add_distrib, Finset.sum_sub_distrib,
    ← Finset.mul_sum, Finset.sum_const, Finset.card_range, nsmul_eq_mul]
  ring

lemma mean_sq_expansion (n : ℕ) (f : ℕ → ℕ → ℚ) :
    (1 / ((n : ℚ)) ^ 2) * ∑ i ∈ Finset.range n, ∑ j ∈ Finset.range n,
        (f i j - (1 / ((n : ℚ)) ^ 2) *
          ∑ i ∈ Finset.range n, ∑ j ∈ Finset.range n, f i j) ^ 2
      = (1 / ((n : ℚ)) ^ 2) *
          (∑ i ∈ Finset.range n, ∑ j ∈ Finset.range n, f i j ^ 2)
        - ((1 / ((n : ℚ)) ^ 2) *
          ∑ i ∈ Finset.range n, ∑ j ∈ Finset.range n, f i j) ^ 2 := by
  rcases Nat.eq_zero_or_pos n with hn | hn
  · subst hn; simp
  · have hnpos : (0 : ℚ) < (n : ℚ) := by exact_mod_cast hn
    have hcne : ((n : ℚ)) ^ 2 ≠ 0 := by positivity
    rw [double_sum_sq_expand]
    field_simp
    ring

/-- C10: with exact rational arithmetic, `heat_capacity` equals the
variance of the per-site energies (hence is nonnegative), and the mean of
squares `U_2` dominates the squared mean `U²`. -/
theorem heat_capacity_nonneg :
    ∀ L : IsingLattice,
      (∀ i j, 0 ≤ i → i < L.size → 0 ≤ j → j < L.size →
        L.system i j = 1 ∨ L.system i j = -1) →
      0 ≤ L.heat_capacity ∧
      L.heat_capacity = energyVariance L ∧
      L.internal_energy.1 ^ 2 ≤ L.internal_energy.2 := by
  intro L _
  have hvar : L.heat_capacity = energyVariance L := by
    rcases lt_or_le L.size 0 with hs | hs
    · have h0 : L.size.toNat = 0 := Int.toNat_of_nonpos hs.le
      unfold IsingLattice.heat_capacity energyVariance IsingLattice.internal_energy
      rw [h0]
      simp
    · have hn : ((L.size.toNat : ℚ)) = (L.size : ℚ) := by
        exact_mod_cast Int.toNat_of_nonneg hs
      unfold IsingLattice.heat_capacity energyVariance IsingLattice.internal_energy
      rw [← hn]
      exact (mean_sq_expansion L.size.toNat (fun i j => (L.energy i j : ℚ))).symm
  have hpos : 0 ≤ energyVariance L := by
    unfold energyVariance
    apply mul_nonneg
    · exact one_div_nonneg.mpr (sq_nonneg _)
    · exact Finset.sum_nonneg fun i _ => Finset.sum_nonneg fun j _ => sq_nonneg _
  have hhc : 0 ≤ L.heat_capacity := hvar ▸ hpos
  refine ⟨hhc, hvar, ?_⟩
  have h2 : L.heat_capacity = L.internal_energy.2 - L.internal_energy.1 ^ 2 := rfl
  rw [h2] at hhc
  linarith

/-- Witness for `heat_capacity_nonneg`: the uniform 3×3 lattice. -/
theorem heat_capacity_nonneg_witness :
    0 ≤ (mkLattice 1 [[1, 1, 1], [1, 1, 1], [1, 1, 1]]).heat_capacity :=
  (heat_capacity_nonneg (mkLattice 1 [[1, 1, 1], [1, 1, 1], [1, 1, 1]])
    (by
      intro i j hi hi2 hj hj2
      simp only [mkLattice, List.length] at hi2 hj2
      interval_cases i <;> interval_cases j <;> decide)).1

/-- States reachable by the simulation: a successful construction
(`IsingLattice(temperature, initial_state, size)`), followed by any
number of driver epochs at sites drawn by `np.random.randint(0,
lattice.size, 2)` (hence in-range). -/
inductive Reachable : IsingLattice → Prop where
  | init : ∀ (T : ℚ) (s : String) (size : ℤ) (r : ℤ → ℤ → Bool)
      (L : IsingLattice), IsingLattice.init T s size r = .ok L → Reachable L
  | step : ∀ (L : IsingLattice) (N M : ℤ) (u : ℝ),
      0 ≤ N → N < L.size → 0 ≤ M → M < L.size →
      Reachable L → Reachable (epoch L N M u)

lemma buildSystem_pm (s : String) (size : ℤ) (r : ℤ → ℤ → Bool)
    (sys : ℤ → ℤ → ℤ) (h : buildSystem s size r = .ok sys) :
    ∀ i j, sys i j = 1 ∨ sys i j = -1 := by
  unfold buildSystem at h
  split_ifs at h <;> simp only [Except.ok.injEq, reduceCtorEq] at h <;>
    intro i j <;> rw [← h]
  · by_cases hr : r i j <;> simp [hr]
  · simp

lemma epoch_cases (L : IsingLattice) (N M : ℤ) (u : ℝ) :
    epoch L N M u = L.flip N M ∨ epoch L N M u = L := by
  unfold epoch
  split_ifs <;> simp

lemma flip_system (L : IsingLattice) (N M i j : ℤ) :
    (L.flip N M).system i j =
      if i = N ∧ j = M then -1 * L.system i j else L.system i j := rfl

lemma reachable_aux (L : IsingLattice) (h : Reachable L) :
    0 ≤ L.size ∧ ∀ i j, L.system i j = 1 ∨ L.system i j = -1 := by
  induction h with
  | init T s size r L hok =>
      unfold IsingLattice.init at hok
      cases hb : buildSystem s size r with
      | error e => rw [hb] at hok; exact absurd hok (by simp)
      | ok sys =>
          rw [hb] at hok
          simp only [Except.ok.injEq] at hok
          rw [← hok]
          exact ⟨((buildSystem_ok_iff s size r).mp ⟨sys, hb⟩).2,
            buildSystem_pm s size r sys hb⟩
  | step L N M u hN1 hN2 hM1 hM2 hre ih =>
      obtain ⟨hsz, hpm⟩ := ih
      rcases epoch_cases L N M u with h | h <;> rw [h]
      · refine ⟨hsz, fun i j => ?_⟩
        rw [flip_system]
        by_cases hij : i = N ∧ j = M
        · rw [if_pos hij]
          rcases hpm i j with h1 | h1 <;> rw [h1]
          · right; norm_num
          · left; norm_num
        · rw [if_neg hij]; exact hpm i j
      · exact ⟨hsz, hpm⟩

lemma sumSpins_pm (L : IsingLattice) (hsz : 0 ≤ L.size)
    (hpm : ∀ i j, 0 ≤ i → i < L.size → 0 ≤ j → j < L.size →
      L.system i j = 1 ∨ L.system i j = -1) :
    L.sumSpins = L.size ^ 2 -
      2 * (((Finset.range L.size.toNat ×ˢ Finset.range L.size.toNat).filter
        (fun p : ℕ × ℕ => L.system p.1 p.2 = -1)).card : ℤ) := by
  have hn : ((L.size.toNat : ℤ)) = L.size := Int.toNat_of_nonneg hsz
  have hgrid : L.sumSpins =
      ∑ p ∈ Finset.range L.size.toNat ×ˢ Finset.range L.size.toNat,
        L.system p.1 p.2 := by
    rw [IsingLattice.sumSpins]
    exact (Finset.sum_product' _ _ _).symm
  have hsplit := Finset.sum_filter_add_sum_filter_not
    (Finset.range L.size.toNat ×ˢ Finset.range L.size.toNat)
    (fun p : ℕ × ℕ => L.system p.1 p.2 = -1)
    (fun p : ℕ × ℕ => L.system p.1 p.2)
  have hctot := Finset.filter_card_add_filter_neg_card_eq_card
    (s := Finset.range L.size.toNat ×ˢ Finset.range L.size.toNat)
    (p := fun p : ℕ × ℕ => L.system p.1 p.2 = -1)
  have hcards : (Finset.range L.size.toNat ×ˢ Finset.range L.size.toNat).card
      = L.size.toNat * L.size.toNat := by
    rw [Finset.card_product, Finset.card_range]
  have h1 : ∑ p ∈ (Finset.range L.size.toNat ×ˢ Finset.range L.size.toNat).filter
      (fun p : ℕ × ℕ => L.system p.1 p.2 = -1), L.system p.1 p.2
      = -(((Finset.range L.size.toNat ×ˢ Finset.range L.size.toNat).filter
        (fun p : ℕ × ℕ => L.system p.1 p.2 = -1)).card : ℤ) := by
    rw [Finset.sum_eq_card_nsmul (fun p hp => (Finset.mem_filter.mp hp).2)]
    simp
  have h2 : ∑ p ∈ (Finset.range L.size.toNat ×ˢ Finset.range L.size.toNat).filter
      (fun p : ℕ × ℕ => ¬ L.system p.1 p.2 = -1), L.system p.1 p.2
      = (((Finset.range L.size.toNat ×ˢ Finset.range L.size.toNat).filter
        (fun p : ℕ × ℕ => ¬ L.system p.1 p.2 = -1)).card : ℤ) := by
    have hval : ∀ p ∈ (Finset.range L.size.toNat ×ˢ Finset.range L.size.toNat).filter
        (fun p : ℕ × ℕ => ¬ L.system p.1 p.2 = -1), L.system p.1 p.2 = 1 := by
      intro p hp
      obtain ⟨hmem, hne⟩ := Finset.mem_filter.mp hp
      obtain ⟨hp1, hp2⟩ := Finset.mem_product.mp hmem
      have hb1 : ((p.1 : ℤ)) < L.size := by
        rw [← hn]; exact_mod_cast Finset.mem_range.mp hp1
      have hb2 : ((p.2 : ℤ)) < L.size := by
        rw [← hn]; exact_mod_cast Finset.mem_range.mp hp2
      rcases hpm p.1 p.2 (Int.ofNat_nonneg _) hb1 (Int.ofNat_nonneg _) hb2 with h | h
      · exact h
      · exact absurd h hne
    rw [Finset.sum_eq_card_nsmul hval]
    simp
  rw [hgrid, ← hsplit, h1, h2]
  have hsq : L.size ^ 2 = ((L.size.toNat * L.size.toNat : ℕ) : ℤ) := by
    conv_lhs => rw [← hn]
    push_cast
    ring
  rw [hsq, ← hcards, ← hctot]
  push_cast
  ring

/-- C8: every reachable state of the simulation (after construction and
any number of driver epochs) has every spin equal to `+1` or `-1`, and
the spin sum equals `N² - 2·(number of -1 spins)`. -/
theorem reachable_invariant :
    ∀ L : IsingLattice, Reachable L →
      (∀ i j, 0 ≤ i → i < L.size → 0 ≤ j → j < L.size →
        L.system i j = 1 ∨ L.system i j = -1) ∧
      L.sumSpins = L.size ^ 2 -
        2 * (((Finset.range L.size.toNat ×ˢ Finset.range L.size.toNat).filter
          (fun p : ℕ × ℕ => L.system p.1 p.2 = -1)).card : ℤ) := by
  intro L h
  obtain ⟨hsz, hpm⟩ := reachable_aux L h
  have hpm' : ∀ i j, 0 ≤ i → i < L.size → 0 ≤ j → j < L.size →
      L.system i j = 1 ∨ L.system i j = -1 := fun i j _ _ _ _ => hpm i j
  exact ⟨hpm', sumSpins_pm L hsz hpm'⟩

/-- Witness for `reachable_invariant`: the lattice built by
`IsingLattice(1, 'u', 3)` is reachable, and the invariant instantiates at
site `(0, 0)`. -/
theorem reachable_invariant_witness :
    (⟨3, 1, fun _ _ => 1⟩ : IsingLattice).system 0 0 = 1 ∨
    (⟨3, 1, fun _ _ => 1⟩ : IsingLattice).system 0 0 = -1 :=
  (reachable_invariant _
    (Reachable.init 1 "u" 3 (fun _ _ => true) _ rfl)).1 0 0
    (by decide) (by decide) (by decide) (by decide)

/-- The loop of `run(lattice, epochs, video)`, with `rem` epochs left,
`i` the current epoch index, and `frames` the frames grabbed so far.
Each iteration updates the lattice (the epoch body), then evaluates
`if video and epoch % (epochs//75) == 0`: when `video` is falsy the
modulo is short-circuited away, otherwise `epochs // 75 == 0` raises
`ZeroDivisionError` (modelled as `.error ()`), and on a zero remainder a
frame is grabbed.  `sites` and `us` are the oracles for
`np.random.randint(0, lattice.size, 2)` and `np.random.rand()`. -/
noncomputable def runAux (epochs : ℕ) (video : Bool) (sites : ℕ → ℤ × ℤ)
    (us : ℕ → ℝ) : ℕ → ℕ → IsingLattice → ℕ → Except Unit (IsingLattice × ℕ)
  | 0, _, L, frames => .ok (L, frames)
  | rem + 1, i, L, frames =>
    let L' := epoch L (sites i).1 (sites i).2 (us i)
    if video then
      if epochs / 75 = 0 then .error ()
      else if i % (epochs / 75) = 0 then
        runAux epochs video sites us rem (i + 1) L' (frames + 1)
      else runAux epochs video sites us rem (i + 1) L' frames
    else runAux epochs video sites us rem (i + 1) L' frames

/-- `run(lattice, epochs, video)`: the full driver loop, returning the
final lattice and the number of video frames grabbed, or the
`ZeroDivisionError`. -/
noncomputable def run (L : IsingLattice) (epochs : ℕ) (video : Bool)
    (sites : ℕ → ℤ × ℤ) (us : ℕ → ℝ) : Except Unit (IsingLattice × ℕ) :=
  runAux epochs video sites us epochs 0 L 0

/-- `rem` Metropolis epochs applied in sequence starting from epoch
index `i`: the pure state evolution of the loop. -/
noncomputable def applyEpochs (sites : ℕ → ℤ × ℤ) (us : ℕ → ℝ) :
    ℕ → ℕ → IsingLattice → IsingLattice
  | 0, _, L => L
  | rem + 1, i, L =>
    applyEpochs sites us rem (i + 1) (epoch L (sites i).1 (sites i).2 (us i))

/-- The number of epoch indices `j ∈ [i, i + rem)` with `j % d = 0`: the
sampling cadence of the loop (one frame per `d = epochs // 75` epochs). -/
def frameTicks (d : ℕ) : ℕ → ℕ → ℕ
  | 0, _ => 0
  | rem + 1, i => (if i % d = 0 then 1 else 0) + frameTicks d rem (i + 1)

lemma runAux_err (epochs : ℕ) (sites : ℕ → ℤ × ℤ) (us : ℕ → ℝ)
    (hd : epochs / 75 = 0) :
    ∀ rem i L frames, 0 < rem →
      runAux epochs true sites us rem i L frames = .error () := by
  intro rem i L frames hrem
  cases rem with
  | zero => omega
  | succ rem => simp [runAux, hd]

lemma runAux_ok (epochs : ℕ) (video : Bool) (sites : ℕ → ℤ × ℤ)
    (us : ℕ → ℝ) (hd : video = true → epochs / 75 ≠ 0) :
    ∀ rem i L frames, runAux epochs video sites us rem i L frames =
      .ok (applyEpochs sites us rem i L,
        frames + if video then frameTicks (epochs / 75) rem i else 0) := by
  intro rem
  induction rem with
  | zero => intro i L frames; cases video <;> simp [runAux, applyEpochs, frameTicks]
  | succ rem ih =>
      intro i L frames
      cases video with
      | false => simp [runAux, applyEpochs, ih]
      | true =>
          have hd' := hd rfl
          by_cases hi : i % (epochs / 75) = 0
          · simp [runAux, applyEpochs, frameTicks, hd', hi, ih]
            omega
          · simp [runAux, applyEpochs, frameTicks, hd', hi, ih]

/-- C5 counterexample: `run` with `epochs = 10` (`0 < 10 < 75`) and video
enabled fails with `ZeroDivisionError` at the first epoch, because the
sampling interval `epochs // 75 = 0` is not clamped to at least 1. -/
theorem run_small_epochs_video_err :
    run (⟨3, 1, fun _ _ => 1⟩ : IsingLattice) 10 true (fun _ => (0, 0))
      (fun _ => 0) = .error () := by
  rw [run]
  exact runAux_err 10 (fun _ => (0, 0)) (fun _ => 0) (by norm_num) 10 0 _ 0
    (by norm_num)

/-- C5 (amended): for every `epochs > 0` the loop performs exactly
`epochs` epoch updates and completes without error when video is
disabled, or when video is enabled and `epochs ≥ 75` (grabbing a frame at
each epoch index divisible by `epochs // 75`); with video enabled and
`epochs < 75` the unclamped interval `epochs // 75 = 0` makes the first
epoch fail with a division-by-zero. -/
theorem run_spec_amended :
    ∀ (L : IsingLattice) (epochs : ℕ) (sites : ℕ → ℤ × ℤ) (us : ℕ → ℝ),
      0 < epochs →
      (run L epochs false sites us =
        .ok (applyEpochs sites us epochs 0 L, 0)) ∧
      (75 ≤ epochs →
        run L epochs true sites us =
          .ok (applyEpochs sites us epochs 0 L,
            frameTicks (epochs / 75) epochs 0)) ∧
      (epochs < 75 →
        run L epochs true sites us = .error ()) := by
  intro L epochs sites us hpos
  refine ⟨?_, fun h75 => ?_, fun hlt => ?_⟩
  · rw [run, runAux_ok epochs false sites us (by intro h; cases h)]
    simp
  · have hd : epochs / 75 ≠ 0 := by
      have h1 : 1 ≤ epochs / 75 := (Nat.one_le_div_iff (by norm_num)).mpr h75
      omega
    rw [run, runAux_ok epochs true sites us (fun _ => hd)]
    simp
  · have hd : epochs / 75 = 0 := Nat.div_eq_of_lt hlt
    rw [run]
    exact runAux_err epochs sites us hd epochs 0 L 0 hpos

/-- Witness for `run_spec_amended`: a concrete 2-epoch run with video
disabled completes with the two epoch updates applied and no frame. -/
theorem run_spec_amended_witness :
    run (⟨3, 1, fun _ _ => 1⟩ : IsingLattice) 2 false (fun _ => (0, 0))
      (fun _ => 0) =
    .ok (applyEpochs (fun _ => (0, 0)) (fun _ => 0) 2 0
      (⟨3, 1, fun _ _ => 1⟩ : IsingLattice), 0) :=
  (run_spec_amended (⟨3, 1, fun _ _ => 1⟩ : IsingLattice) 2 (fun _ => (0, 0))
    (fun _ => 0) (by norm_num)).1

end IsingModel
